import Mathlib

/-!
Verification development for the finite Drinfeld module library
(`finite_drinfeld_module.py`).

The development has two layers.

The first layer is an executable algebraic semantics of the external
collaborators the source calls, as fixed by the specification's boundary
contract: skew (Ore) polynomials over a coefficient ring `L` are modelled as
coefficient lists (index `i` holds the coefficient of `τ^i`), with twisted
addition and multiplication, operator evaluation, and the
homomorphism-extension ("application") rule used when a `FiniteDrinfeldModule`
is applied to a polynomial.  `FiniteDrinfeldModuleAction._act_` is the
composite `self.finite_drinfeld_module()(g)(x)`, translated here as
`drinfeldAct`.

The second layer is a descriptor-level translation of the Python validation
control flow: the constructor `FiniteDrinfeldModule.__init__`, the helper
`_check_base_fields`, `change_ring`, `rank`, the getters, and
`FiniteDrinfeldModuleAction.__init__`, with Python exceptions rendered as
`Except` values.
-/

/-- Coefficientwise addition of polynomials represented as coefficient lists.
This is both the addition of the Ore polynomial ring `L{τ}` (addition is
untwisted there) and the addition of the commutative ring `Fq[X]`. -/
def skewAdd {R : Type} [CommRing R] : List R → List R → List R
  | [], g => g
  | f, [] => f
  | a :: f, b :: g => (a + b) :: skewAdd f g

/-- Twisted (Ore) multiplication with twist `σ`: determined by the
commutation rule `τ * c = σ(c) * τ`, so that
`(Σ f_i τ^i) * (Σ g_j τ^j) = Σ f_i σ^i(g_j) τ^(i+j)`.
With `σ = id` this is the ordinary commutative polynomial product. -/
def skewMul {R : Type} [CommRing R] (σ : R → R) : List R → List R → List R
  | [], _ => []
  | a :: f, g => skewAdd (g.map (fun b => a * b)) (skewMul σ f (0 :: g.map σ))

/-- Powers in the Ore ring, `f ^ n` with twisted multiplication. -/
def skewPow {R : Type} [CommRing R] (σ : R → R) (f : List R) : Nat → List R
  | 0 => [1]
  | n + 1 => skewMul σ f (skewPow σ f n)

/-- Operator evaluation of an Ore polynomial, the boundary contract of
Sage's Ore polynomial call: `(Σ a_i τ^i)(x) = Σ a_i · σ^i(x)`.  For the
validated Frobenius twist `σ(y) = y^q` this is `Σ a_i · x^(q^i)`. -/
def evalOre {R : Type} [CommRing R] (σ : R → R) : List R → R → R
  | [], _ => 0
  | a :: f, x => a * x + evalOre σ f (σ x)

/-- Application rule of the ring morphism determined by `X ↦ gen`
(the boundary contract of applying the `RingHomomorphism_im_gens` that the
constructor builds): tail of the sum `Σ_{j≥i} ι(c_j) · gen^j`, computed with
the skew ring's own addition and multiplication; `ι` is the coefficient
embedding `Fq → L`. -/
def phiAux {Fq L : Type} [CommRing Fq] [CommRing L]
    (σ : L → L) (ι : Fq → L) (gen : List L) : List Fq → Nat → List L
  | [], _ => []
  | c :: p, i =>
      skewAdd (skewMul σ [ι c] (skewPow σ gen i)) (phiAux σ ι gen p (i + 1))

/-- The homomorphic image `φ(a) = Σ ι(c_i) · gen^i` of a polynomial
`a = Σ c_i X^i`, with the sum and products taken in the skew ring. -/
def phiMap {Fq L : Type} [CommRing Fq] [CommRing L]
    (σ : L → L) (ι : Fq → L) (gen : List L) (p : List Fq) : List L :=
  phiAux σ ι gen p 0

/-- Translation of `FiniteDrinfeldModuleAction._act_`:
`self.finite_drinfeld_module()(g)(x)`, i.e. apply the module's ring morphism
to `g`, then evaluate the resulting Ore polynomial at `x`. -/
def drinfeldAct {Fq L : Type} [CommRing Fq] [CommRing L]
    (σ : L → L) (ι : Fq → L) (gen : List L) (g : List Fq) (x : L) : L :=
  evalOre σ (phiMap σ ι gen g) x

/-- Ordinary commutative product of polynomials in the source ring `Fq[X]`:
the twisted product with the identity twist. -/
def polyMul {Fq : Type} [CommRing Fq] (p q : List Fq) : List Fq :=
  skewMul id p q

/-- Direct Frobenius-power sum: tail of `Σ_{j≥i} a_j · x^(q^j)`.  This is the
specification's description of Ore evaluation ("iterated Frobenius, not
ordinary polynomial evaluation"), written with literal powers. -/
def sumPow {R : Type} [CommRing R] (q : Nat) : List R → R → Nat → R
  | [], _, _ => 0
  | a :: f, x, i => a * x ^ q ^ i + sumPow q f x (i + 1)

/-- Closed form of the induced module action:
`Σ ι(c_i) · Φ^[i](x)` where `Φ` is the additive map of `gen`. -/
def actSum {Fq L : Type} [CommRing Fq] [CommRing L]
    (ι : Fq → L) (Φ : L → L) : List Fq → L → L
  | [], _ => 0
  | c :: p, x => ι c * x + actSum ι Φ p (Φ x)

section AlgebraLemmas

variable {R : Type} [CommRing R] {σ : R → R}

lemma evalOre_skewAdd (f g : List R) (x : R) :
    evalOre σ (skewAdd f g) x = evalOre σ f x + evalOre σ g x := by
  induction f generalizing g x with
  | nil => simp [skewAdd, evalOre]
  | cons a f ih =>
      cases g with
      | nil => simp [skewAdd, evalOre]
      | cons b g =>
          simp only [skewAdd, evalOre, ih]
          ring

lemma evalOre_map_mul (a : R) (f : List R) (x : R) :
    evalOre σ (f.map (fun b => a * b)) x = a * evalOre σ f x := by
  induction f generalizing x with
  | nil => simp [evalOre]
  | cons b f ih =>
      simp only [List.map_cons, evalOre, ih]
      ring

lemma sigma_zero (hadd : ∀ a b, σ (a + b) = σ a + σ b) : σ 0 = 0 := by
  have h := hadd 0 0
  rw [add_zero] at h
  exact (add_right_eq_self).mp h.symm

lemma evalOre_map_sigma
    (hadd : ∀ a b, σ (a + b) = σ a + σ b)
    (hmul : ∀ a b, σ (a * b) = σ a * σ b)
    (f : List R) (x : R) :
    evalOre σ (f.map σ) (σ x) = σ (evalOre σ f x) := by
  induction f generalizing x with
  | nil => simp [evalOre, sigma_zero hadd]
  | cons b f ih =>
      simp only [List.map_cons, evalOre]
      rw [ih, ← hmul, ← hadd]

lemma evalOre_skewMul
    (hadd : ∀ a b, σ (a + b) = σ a + σ b)
    (hmul : ∀ a b, σ (a * b) = σ a * σ b)
    (f g : List R) (x : R) :
    evalOre σ (skewMul σ f g) x = evalOre σ f (evalOre σ g x) := by
  induction f generalizing g x with
  | nil => simp [skewMul, evalOre]
  | cons a f ih =>
      simp only [skewMul, evalOre, evalOre_skewAdd, evalOre_map_mul, ih]
      rw [evalOre_map_sigma hadd hmul, zero_mul, zero_add]

lemma evalOre_skewPow
    (hadd : ∀ a b, σ (a + b) = σ a + σ b)
    (hmul : ∀ a b, σ (a * b) = σ a * σ b)
    (gen : List R) (n : Nat) (x : R) :
    evalOre σ (skewPow σ gen n) x = (fun y => evalOre σ gen y)^[n] x := by
  induction n generalizing x with
  | zero => simp [skewPow, evalOre]
  | succ n ih =>
      rw [skewPow, evalOre_skewMul hadd hmul, ih,
        Function.iterate_succ_apply']

end AlgebraLemmas

section ActLemmas

variable {Fq L : Type} [CommRing Fq] [CommRing L]
variable {σ : L → L} {ι : Fq → L}

lemma evalOre_phiAux
    (hadd : ∀ a b, σ (a + b) = σ a + σ b)
    (hmul : ∀ a b, σ (a * b) = σ a * σ b)
    (gen : List L) (p : List Fq) (i : Nat) (x : L) :
    evalOre σ (phiAux σ ι gen p i) x =
      actSum ι (fun y => evalOre σ gen y) p ((fun y => evalOre σ gen y)^[i] x) := by
  induction p generalizing i with
  | nil => simp [phiAux, actSum, evalOre]
  | cons c p ih =>
      simp only [phiAux, actSum, evalOre_skewAdd,
        evalOre_skewMul hadd hmul, evalOre_skewPow hadd hmul, ih]
      rw [Function.iterate_succ_apply']
      simp [evalOre, sigma_zero hadd]

lemma drinfeldAct_eq_actSum
    (hadd : ∀ a b, σ (a + b) = σ a + σ b)
    (hmul : ∀ a b, σ (a * b) = σ a * σ b)
    (gen : List L) (g : List Fq) (x : L) :
    drinfeldAct σ ι gen g x = actSum ι (fun y => evalOre σ gen y) g x := by
  have h := evalOre_phiAux (ι := ι) hadd hmul gen g 0 x
  simpa [drinfeldAct, phiMap] using h

lemma evalOre_add_arg
    (hadd : ∀ a b, σ (a + b) = σ a + σ b)
    (f : List L) (y z : L) :
    evalOre σ f (y + z) = evalOre σ f y + evalOre σ f z := by
  induction f generalizing y z with
  | nil => simp [evalOre]
  | cons a f ih =>
      simp only [evalOre, hadd, ih]
      ring

set_option linter.unusedSectionVars false in
lemma evalOre_smul_arg
    (hmul : ∀ a b, σ (a * b) = σ a * σ b)
    (c : Fq) (hfix : σ (ι c) = ι c)
    (f : List L) (y : L) :
    evalOre σ f (ι c * y) = ι c * evalOre σ f y := by
  induction f generalizing y with
  | nil => simp [evalOre]
  | cons a f ih =>
      simp only [evalOre, hmul, hfix, ih]
      ring

lemma evalOre_zero_arg
    (hadd : ∀ a b, σ (a + b) = σ a + σ b)
    (f : List L) :
    evalOre σ f (0 : L) = 0 := by
  induction f with
  | nil => simp [evalOre]
  | cons a f ih =>
      simp [evalOre, sigma_zero hadd, ih]

lemma actSum_comm_gen
    (hadd : ∀ a b, σ (a + b) = σ a + σ b)
    (hmul : ∀ a b, σ (a * b) = σ a * σ b)
    (hfix : ∀ c, σ (ι c) = ι c)
    (gen : List L) (q : List Fq) (x : L) :
    evalOre σ gen (actSum ι (fun y => evalOre σ gen y) q x) =
      actSum ι (fun y => evalOre σ gen y) q (evalOre σ gen x) := by
  induction q generalizing x with
  | nil => simp [actSum, evalOre_zero_arg hadd]
  | cons b q ih =>
      simp only [actSum]
      rw [evalOre_add_arg hadd, evalOre_smul_arg hmul b (hfix b), ih]

lemma actSum_skewAdd
    (iadd : ∀ a b, ι (a + b) = ι a + ι b)
    (Φ : L → L) (p q : List Fq) (x : L) :
    actSum ι Φ (skewAdd p q) x = actSum ι Φ p x + actSum ι Φ q x := by
  induction p generalizing q x with
  | nil => simp [skewAdd, actSum]
  | cons a p ih =>
      cases q with
      | nil => simp [skewAdd, actSum]
      | cons b q =>
          simp only [skewAdd, actSum, iadd, ih]
          ring

lemma actSum_map_mul
    (imul : ∀ a b, ι (a * b) = ι a * ι b)
    (Φ : L → L) (c : Fq) (q : List Fq) (x : L) :
    actSum ι Φ (q.map (fun b => c * b)) x = ι c * actSum ι Φ q x := by
  induction q generalizing x with
  | nil => simp [actSum]
  | cons b q ih =>
      simp only [List.map_cons, actSum, imul, ih]
      ring

lemma actSum_polyMul
    (hadd : ∀ a b, σ (a + b) = σ a + σ b)
    (hmul : ∀ a b, σ (a * b) = σ a * σ b)
    (hfix : ∀ c, σ (ι c) = ι c)
    (izero : ι 0 = 0) (iadd : ∀ a b, ι (a + b) = ι a + ι b)
    (imul : ∀ a b, ι (a * b) = ι a * ι b)
    (gen : List L) (p q : List Fq) (x : L) :
    actSum ι (fun y => evalOre σ gen y) (polyMul p q) x =
      actSum ι (fun y => evalOre σ gen y) p
        (actSum ι (fun y => evalOre σ gen y) q x) := by
  induction p generalizing q x with
  | nil => simp [polyMul, skewMul, actSum]
  | cons c p ih =>
      simp only [polyMul, skewMul, List.map_id] at *
      rw [actSum_skewAdd iadd, actSum_map_mul imul]
      have h0 : actSum ι (fun y => evalOre σ gen y) (0 :: q) x
          = actSum ι (fun y => evalOre σ gen y) q (evalOre σ gen x) := by
        simp [actSum, izero]
      rw [ih (0 :: q) x, h0]
      simp only [actSum]
      rw [actSum_comm_gen hadd hmul hfix]

lemma evalOre_eq_sumPow {q : Nat}
    (hq : ∀ y : L, σ y = y ^ q)
    (f : List L) (i : Nat) (x : L) :
    evalOre σ f (x ^ q ^ i) = sumPow q f x i := by
  induction f generalizing i with
  | nil => simp [evalOre, sumPow]
  | cons a f ih =>
      simp only [evalOre, sumPow, hq]
      rw [← pow_mul, ← pow_succ, ih]

end ActLemmas

/-- C1: for a validly constructed Drinfeld module (the validated twist is
the `q`-power Frobenius `σ(y) = y ^ q` with `q = |Fq|`), the action
`act(g, x)` — translated as `drinfeldAct`, the composite of the module's
ring-morphism application and Ore-operator evaluation, exactly as
`FiniteDrinfeldModuleAction._act_` computes it — returns the homomorphic
image `φ(g) = Σ ι(c_i)·gen^i` (computed with the skew ring's twisted
addition and multiplication, `phiMap`) evaluated at `x` as the
iterated-Frobenius sum `Σ a_i · x^(q^i)` (`sumPow`), not by ordinary
polynomial evaluation. -/
theorem act_is_frobenius_eval {Fq L : Type} [CommRing Fq] [CommRing L]
    (σ : L → L) (ι : Fq → L) (gen : List L) (q : Nat)
    (hq : ∀ y : L, σ y = y ^ q) (g : List Fq) (x : L) :
    drinfeldAct σ ι gen g x = sumPow q (phiMap σ ι gen g) x 0 := by
  have h := evalOre_eq_sumPow (σ := σ) hq (phiMap σ ι gen g) 0 x
  simpa [drinfeldAct] using h

/-- Witness for C1 at a concrete instance: `Fq = L = Z/7`, the Frobenius
`y ↦ y^7`, the identity coefficient embedding, generator `τ^2 + 1`,
polynomial `X^3 + X + 5`, point `3`. -/
theorem act_is_frobenius_eval_witness :
    (∀ y : ZMod 7, (fun z : ZMod 7 => z ^ 7) y = y ^ 7) ∧
      drinfeldAct (fun z : ZMod 7 => z ^ 7) (fun c : ZMod 7 => c)
          [1, 0, 1] [5, 1, 0, 1] 3
        = sumPow 7
            (phiMap (fun z : ZMod 7 => z ^ 7) (fun c : ZMod 7 => c)
              [1, 0, 1] [5, 1, 0, 1]) 3 0 :=
  ⟨fun _ => rfl,
    act_is_frobenius_eval (fun z : ZMod 7 => z ^ 7) (fun c : ZMod 7 => c)
      [1, 0, 1] 7 (fun _ => rfl) [5, 1, 0, 1] 3⟩

/-- C2: homomorphism laws of the induced module action.  For a validly
constructed Drinfeld module (twist `σ` a ring endomorphism fixing the image
of the coefficient embedding `ι`, which is a ring homomorphism — exactly the
invariants the constructor enforces), for all `g1, g2` in the polynomial
ring and all `x` in the action's codomain field:
`act(g1+g2, x) = act(g1, x) + act(g2, x)`,
`act(g1*g2, x) = act(g1, act(g2, x))`, and `act(1, x) = x`. -/
theorem act_module_laws {Fq L : Type} [CommRing Fq] [CommRing L]
    (σ : L → L) (ι : Fq → L) (gen : List L)
    (hadd : ∀ a b, σ (a + b) = σ a + σ b)
    (hmul : ∀ a b, σ (a * b) = σ a * σ b)
    (hfix : ∀ c, σ (ι c) = ι c)
    (izero : ι 0 = 0) (ione : ι 1 = 1)
    (iadd : ∀ a b, ι (a + b) = ι a + ι b)
    (imul : ∀ a b, ι (a * b) = ι a * ι b)
    (g1 g2 : List Fq) (x : L) :
    drinfeldAct σ ι gen (skewAdd g1 g2) x
        = drinfeldAct σ ι gen g1 x + drinfeldAct σ ι gen g2 x
      ∧ drinfeldAct σ ι gen (polyMul g1 g2) x
        = drinfeldAct σ ι gen g1 (drinfeldAct σ ι gen g2 x)
      ∧ drinfeldAct σ ι gen [1] x = x := by
  refine ⟨?_, ?_, ?_⟩
  · rw [drinfeldAct_eq_actSum hadd hmul, drinfeldAct_eq_actSum hadd hmul,
      drinfeldAct_eq_actSum hadd hmul, actSum_skewAdd iadd]
  · rw [drinfeldAct_eq_actSum hadd hmul, drinfeldAct_eq_actSum hadd hmul,
      drinfeldAct_eq_actSum hadd hmul,
      actSum_polyMul hadd hmul hfix izero iadd imul]
  · rw [drinfeldAct_eq_actSum hadd hmul]
    simp [actSum, ione]

/-- Witness for C2 at a concrete instance: `Fq = L = Z/7`, Frobenius twist
`y ↦ y^7`, identity embedding, generator `τ^2 + 1`, `g1 = 3X + 2`,
`g2 = 4X^2 + 1`, `x = 5`. -/
theorem act_module_laws_witness :
    (∀ a b : ZMod 7, (a + b) ^ 7 = a ^ 7 + b ^ 7)
      ∧ (∀ a b : ZMod 7, (a * b) ^ 7 = a ^ 7 * b ^ 7)
      ∧ (∀ c : ZMod 7, c ^ 7 = c)
      ∧ (drinfeldAct (fun z : ZMod 7 => z ^ 7) (fun c : ZMod 7 => c)
            [1, 0, 1] (skewAdd [2, 3] [1, 0, 4]) 5
          = drinfeldAct (fun z : ZMod 7 => z ^ 7) (fun c : ZMod 7 => c)
              [1, 0, 1] [2, 3] 5
            + drinfeldAct (fun z : ZMod 7 => z ^ 7) (fun c : ZMod 7 => c)
              [1, 0, 1] [1, 0, 4] 5
        ∧ drinfeldAct (fun z : ZMod 7 => z ^ 7) (fun c : ZMod 7 => c)
            [1, 0, 1] (polyMul [2, 3] [1, 0, 4]) 5
          = drinfeldAct (fun z : ZMod 7 => z ^ 7) (fun c : ZMod 7 => c)
              [1, 0, 1] [2, 3]
              (drinfeldAct (fun z : ZMod 7 => z ^ 7) (fun c : ZMod 7 => c)
                [1, 0, 1] [1, 0, 4] 5)
        ∧ drinfeldAct (fun z : ZMod 7 => z ^ 7) (fun c : ZMod 7 => c)
            [1, 0, 1] [1] 5 = 5) :=
  ⟨by decide, by decide, by decide,
    act_module_laws (fun z : ZMod 7 => z ^ 7) (fun c : ZMod 7 => c)
      [1, 0, 1] (by decide) (by decide) (by decide) rfl rfl
      (fun _ _ => rfl) (fun _ _ => rfl) [2, 3] [1, 0, 4] 5⟩

/-!
Descriptor layer: the Python-level validation control flow, with
`TypeError` and `ValueError` rendered as the two error kinds and each
checked property of a Sage object recorded as descriptor data.
-/

/-- Python exception kinds raised by the source: `TypeError` (type-kind)
and `ValueError` (domain-kind), with their messages. -/
inductive ErrKind where
  | typeError (msg : String)
  | valueError (msg : String)
deriving DecidableEq

/-- Success test for an `Except` result. -/
def exceptOk {ε α : Type} : Except ε α → Bool
  | .ok _ => true
  | .error _ => false

/-- Descriptor of a Sage ring object as queried by the source: identity,
the results of `is_field()` and `is_finite()`, `degree()` (degree over the
prime field), and the identities of the rings `F` for which
`F.is_subring(self)` holds. -/
structure FieldDesc where
  fid : Nat
  isField : Bool
  isFinite : Bool
  degree : Nat
  subringIds : List Nat
deriving DecidableEq

/-- Translation of `F.is_subring(R)`. -/
def FieldDesc.is_subring (F R : FieldDesc) : Bool :=
  R.subringIds.contains F.fid

def genTypeMsg : String := "The generator must be an Ore polynomial"

def baseFieldsMsg : String :=
  "The base field of the Ore polynomial ring must be a finite field extension of the base field of the polynomial ring"

def derivationMsg : String := "The Ore polynomial ring should have no derivation"

def twistMsg : String :=
  "The twisting morphism of the Ore polynomial ring must be the Frobenius endomorphism of the base field of the polynomial ring"

def constantGenMsg : String := "The generator must not be constant"

def notFiniteFieldMsg : String := "Argument must be a finite field"

def newFieldMsg : String :=
  "The new field must be a finite field extension of the base field of the Ore polynomial ring."

def notModuleMsg : String := "First argument must be a FiniteDrinfeldModule"

/-- Translation of `_check_base_fields(Fq, L)`: raise `ValueError` unless
`L.is_field() and L.is_finite() and Fq.is_subring(L)`. -/
def check_base_fields (Fq L : FieldDesc) : Except ErrKind Unit :=
  if L.isField && L.isFinite && Fq.is_subring L then .ok ()
  else .error (.valueError baseFieldsMsg)

/-- Descriptor of an Ore polynomial ring as queried by the source: its base
ring, whether `twisting_derivation()` is non-null, the `power()` of its
`twisting_morphism()`, and its variable names. -/
structure OreRingDesc where
  baseRing : FieldDesc
  hasDerivation : Bool
  twistPower : Nat
  varName : String
deriving DecidableEq

/-- Descriptor of the first constructor argument: the result of the
`isinstance(polring, PolynomialRing_dense_finite_field)` test, and the
ring returned by `polring.base_ring()`. -/
structure PolringDesc where
  isPolynomialRing : Bool
  baseRing : FieldDesc
deriving DecidableEq

/-- Descriptor of the second constructor argument: either an Ore polynomial
(with its parent ring and its `τ`-degree; constants, including zero, have
degree `0` here) or any other Python value. -/
inductive GenArg where
  | ore (parent : OreRingDesc) (deg : Nat)
  | notOre
deriving DecidableEq

/-- A constructed `FiniteDrinfeldModule`: the data the validated object
retains (its domain, its codomain, and the generator's degree). -/
structure FiniteDrinfeldModule where
  polring : PolringDesc
  oreRing : OreRingDesc
  genDeg : Nat
deriving DecidableEq

/-- Translation of `FiniteDrinfeldModule.__init__`.  The
`isinstance(polring, PolynomialRing_dense_finite_field)` expression is
computed and its result discarded, exactly as in the source (the statement
has no effect); then the generator type check, `_check_base_fields`, the
derivation check, the twist-power check, and the constancy check run in
order, the first violation raising. -/
def FiniteDrinfeldModule.init (polring : PolringDesc) (gen : GenArg) :
    Except ErrKind FiniteDrinfeldModule :=
  let _typeCheckDiscarded := polring.isPolynomialRing
  match gen with
  | .notOre => .error (.typeError genTypeMsg)
  | .ore Ltau deg =>
    match check_base_fields polring.baseRing Ltau.baseRing with
    | .error e => .error e
    | .ok _ =>
      if Ltau.hasDerivation then .error (.valueError derivationMsg)
      else if Ltau.twistPower ≠ polring.baseRing.degree then
        .error (.valueError twistMsg)
      else if deg = 0 then .error (.valueError constantGenMsg)
      else .ok ⟨polring, Ltau, deg⟩

/-- Translation of `rank`: `self.gen().degree()`. -/
def FiniteDrinfeldModule.rank (self : FiniteDrinfeldModule) : Nat :=
  self.genDeg

/-- Translation of `frobenius().power()`: the twist power of the codomain. -/
def FiniteDrinfeldModule.frobeniusPower (self : FiniteDrinfeldModule) : Nat :=
  self.oreRing.twistPower

/-- Translation of `change_ring`.  The first test is the source's
`if not R.is_field() and R.is_finite():` with Python precedence, i.e.
`(not R.is_field()) and R.is_finite()`; then the subring test, then
`_check_base_fields`; on success a new Ore ring over `R` with the same
twist power, no derivation and the same variable name is built, the
generator is re-embedded (degree preserved by the canonical embedding), and
a brand-new module is produced through the validating constructor. -/
def FiniteDrinfeldModule.change_ring (self : FiniteDrinfeldModule)
    (R : FieldDesc) : Except ErrKind FiniteDrinfeldModule :=
  if (!R.isField) && R.isFinite then .error (.typeError notFiniteFieldMsg)
  else if !(self.oreRing.baseRing.is_subring R) then
    .error (.valueError newFieldMsg)
  else
    match check_base_fields self.polring.baseRing R with
    | .error e => .error e
    | .ok _ =>
      FiniteDrinfeldModule.init self.polring
        (.ore ⟨R, false, self.oreRing.twistPower, self.oreRing.varName⟩
          self.genDeg)

/-- State-explicit rendering of the `change_ring` method call: the method
body contains no assignment to any attribute of `self`, so the post-state
of the receiver is its pre-state; the pair returns the method's result
together with that post-state. -/
def FiniteDrinfeldModule.change_ring_st (self : FiniteDrinfeldModule)
    (R : FieldDesc) :
    Except ErrKind FiniteDrinfeldModule × FiniteDrinfeldModule :=
  (self.change_ring R, self)

/-- Descriptor of the argument of `FiniteDrinfeldModuleAction.__init__`:
either a `FiniteDrinfeldModule` instance or any other Python value. -/
inductive ActionArg where
  | module (m : FiniteDrinfeldModule)
  | notModule
deriving DecidableEq

/-- A constructed `FiniteDrinfeldModuleAction`: the stored back-reference
and the domain and codomain passed to `Action.__init__`
(`finite_drinfeld_module.polring()` and
`finite_drinfeld_module.ore_polring().base_ring()`). -/
structure FiniteDrinfeldModuleAction where
  drinfeldModule : FiniteDrinfeldModule
  domain : PolringDesc
  codomain : FieldDesc
deriving DecidableEq

/-- Translation of `FiniteDrinfeldModuleAction.__init__`. -/
def FiniteDrinfeldModuleAction.init (arg : ActionArg) :
    Except ErrKind FiniteDrinfeldModuleAction :=
  match arg with
  | .notModule => .error (.typeError notModuleMsg)
  | .module m => .ok ⟨m, m.polring, m.oreRing.baseRing⟩

/-- Translation of `FiniteDrinfeldModule._get_action_`. -/
def FiniteDrinfeldModule.get_action (self : FiniteDrinfeldModule) :
    Except ErrKind FiniteDrinfeldModuleAction :=
  FiniteDrinfeldModuleAction.init (.module self)

lemma init_ok_iff (p : PolringDesc) (r : OreRingDesc) (d : Nat)
    (m : FiniteDrinfeldModule) :
    FiniteDrinfeldModule.init p (.ore r d) = .ok m ↔
      ((r.baseRing.isField && r.baseRing.isFinite
          && p.baseRing.is_subring r.baseRing) = true
        ∧ r.hasDerivation = false
        ∧ r.twistPower = p.baseRing.degree
        ∧ d ≠ 0
        ∧ FiniteDrinfeldModule.mk p r d = m) := by
  unfold FiniteDrinfeldModule.init check_base_fields
  cases hb : (r.baseRing.isField && r.baseRing.isFinite
      && p.baseRing.is_subring r.baseRing) with
  | false =>
      have hb' : ¬(r.baseRing.isField = true ∧ r.baseRing.isFinite = true
          ∧ p.baseRing.is_subring r.baseRing = true) := by
        simpa [Bool.and_eq_true, and_assoc] using hb
      simp [hb, hb']
  | true =>
      have hb' : r.baseRing.isField = true ∧ r.baseRing.isFinite = true
          ∧ p.baseRing.is_subring r.baseRing = true := by
        simpa [Bool.and_eq_true, and_assoc] using hb
      obtain ⟨h1, h2, h3⟩ := hb'
      cases hder : r.hasDerivation with
      | true => simp [h1, h2, h3, hder]
      | false =>
          by_cases htw : r.twistPower = p.baseRing.degree
          · by_cases hd : d = 0 <;> simp [h1, h2, h3, hder, htw, hd]
          · simp [h1, h2, h3, hder, htw]

/-!
Concrete descriptors used by the closed (witness and counter-evidence)
theorems, mirroring the docstring scenario: `Fq = GF(7^2)`,
`L = GF(7^6)` a degree-3 extension, `M = GF(7^12)` a degree-2 extension of
`L`, an Ore ring over `L` with Frobenius power `2` and no derivation, and a
generator of `τ`-degree `2`.  `ZintD` describes a ring that is neither a
field nor finite (such as the integer ring) and `QinfD` an infinite field
containing `Fq` and `L`.
-/

def FqD : FieldDesc := ⟨0, true, true, 2, [0]⟩

def LD : FieldDesc := ⟨1, true, true, 6, [0, 1]⟩

def MD : FieldDesc := ⟨2, true, true, 12, [0, 1, 2]⟩

def ZintD : FieldDesc := ⟨9, false, false, 1, []⟩

def QinfD : FieldDesc := ⟨10, true, false, 1, [0, 1]⟩

def oreD : OreRingDesc := ⟨LD, false, 2, "t"⟩

def polD : PolringDesc := ⟨true, FqD⟩

def phiD : FiniteDrinfeldModule := ⟨polD, oreD, 2⟩

def oreMD : OreRingDesc := ⟨MD, false, 2, "t"⟩

def psiD : FiniteDrinfeldModule := ⟨polD, oreMD, 2⟩

/-- C3: constructor validation.  A non-Ore generator always raises the
type-kind error, and for an Ore generator the checks run in the fixed
order field compatibility, derivation, twist power, constant generator
(the generator type test having already dispatched), the first violation
being reported; a constant generator with structurally valid arguments
therefore yields the domain-kind constant-generator error, a non-null
derivation always fails, a wrong twist power always fails, and no partial
object escapes (the error branches carry no module). -/
theorem drinfeld_init_validation (p : PolringDesc) (r : OreRingDesc)
    (d : Nat) :
    FiniteDrinfeldModule.init p .notOre = .error (.typeError genTypeMsg)
    ∧ FiniteDrinfeldModule.init p (.ore r d) =
        (if (r.baseRing.isField && r.baseRing.isFinite
            && p.baseRing.is_subring r.baseRing) = false then
          .error (.valueError baseFieldsMsg)
        else if r.hasDerivation then .error (.valueError derivationMsg)
        else if r.twistPower ≠ p.baseRing.degree then
          .error (.valueError twistMsg)
        else if d = 0 then .error (.valueError constantGenMsg)
        else .ok ⟨p, r, d⟩) := by
  refine ⟨rfl, ?_⟩
  unfold FiniteDrinfeldModule.init check_base_fields
  cases hb : (r.baseRing.isField && r.baseRing.isFinite
      && p.baseRing.is_subring r.baseRing) with
  | false =>
      have hb' : ¬(r.baseRing.isField = true ∧ r.baseRing.isFinite = true
          ∧ p.baseRing.is_subring r.baseRing = true) := by
        simpa [Bool.and_eq_true, and_assoc] using hb
      simp [hb, hb']
  | true =>
      have hb' : r.baseRing.isField = true ∧ r.baseRing.isFinite = true
          ∧ p.baseRing.is_subring r.baseRing = true := by
        simpa [Bool.and_eq_true, and_assoc] using hb
      obtain ⟨h1, h2, h3⟩ := hb'
      cases hder : r.hasDerivation with
      | true => simp [h1, h2, h3, hder]
      | false =>
          by_cases htw : r.twistPower = p.baseRing.degree
          · by_cases hd : d = 0 <;> simp [h1, h2, h3, hder, htw, hd]
          · simp [h1, h2, h3, hder, htw]

/-- C10: the constructor performs no effective validation of its first
argument.  The result of the
`isinstance(polring, PolynomialRing_dense_finite_field)` test is computed
and discarded, so the error raised (if any), and whether construction
succeeds, are independent of that test's outcome: only the generator type,
field compatibility, derivation, twist power and constancy checks can cause
a failure. -/
theorem init_ignores_polring_typecheck (b1 b2 : Bool) (F : FieldDesc)
    (g : GenArg) :
    (∀ e, FiniteDrinfeldModule.init ⟨b1, F⟩ g = .error e
        ↔ FiniteDrinfeldModule.init ⟨b2, F⟩ g = .error e)
    ∧ exceptOk (FiniteDrinfeldModule.init ⟨b1, F⟩ g)
        = exceptOk (FiniteDrinfeldModule.init ⟨b2, F⟩ g) := by
  cases g with
  | notOre => exact ⟨fun e => Iff.rfl, rfl⟩
  | ore r d =>
      unfold FiniteDrinfeldModule.init
      cases hc : check_base_fields F r.baseRing with
      | error e' => simp [hc, exceptOk]
      | ok u =>
          simp only [hc]
          by_cases hder : r.hasDerivation = true
      <;> by_cases htw : r.twistPower = F.degree
      <;> by_cases hd : d = 0
      <;> simp [hder, htw, hd, exceptOk]

/-- C9: the field-compatibility checker `_check_base_fields(Fq, L)`
succeeds iff `L` is a field, `L` is finite and `Fq` is a subring of `L`,
and otherwise signals the domain-kind (value-error) failure; it is a pure
function of the two descriptors (its translation is a plain function with
no state). -/
theorem check_base_fields_spec (Fq L : FieldDesc) :
    (check_base_fields Fq L = .ok ()
        ↔ (L.isField = true ∧ L.isFinite = true ∧ Fq.is_subring L = true))
    ∧ (check_base_fields Fq L = .ok ()
        ∨ check_base_fields Fq L = .error (.valueError baseFieldsMsg)) := by
  unfold check_base_fields
  cases hb : (L.isField && L.isFinite && Fq.is_subring L) with
  | false =>
      have hb' : ¬(L.isField = true ∧ L.isFinite = true
          ∧ Fq.is_subring L = true) := by
        simpa [Bool.and_eq_true, and_assoc] using hb
      simp [hb, hb']
  | true =>
      have hb' : L.isField = true ∧ L.isFinite = true
          ∧ Fq.is_subring L = true := by
        simpa [Bool.and_eq_true, and_assoc] using hb
      simp [hb, hb']

/-- C4 evidence: the source's guard
`if not R.is_field() and R.is_finite():` binds as
`(not R.is_field()) and R.is_finite()`, so a ring that is not a finite
field but is not a *finite non-field* never receives the claimed type-kind
error.  At `R = ZintD` (neither a field nor finite) `change_ring` raises
the domain-kind not-an-extension error, and at `R = QinfD` (an infinite
field containing `L`) it raises the domain-kind incompatible-fields error —
in both cases a value-error where the claim requires a type-error.  The
success case `R = MD` behaves as claimed. -/
theorem change_ring_error_kind_divergence :
    FiniteDrinfeldModule.change_ring phiD ZintD
        = .error (.valueError newFieldMsg)
    ∧ FiniteDrinfeldModule.change_ring phiD QinfD
        = .error (.valueError baseFieldsMsg)
    ∧ FiniteDrinfeldModule.change_ring phiD MD = .ok psiD :=
  ⟨rfl, rfl, rfl⟩

/-- C5: for every validly constructed module, `rank()` equals the
generator's `τ`-degree and is at least `1`. -/
theorem rank_is_gen_degree (p : PolringDesc) (r : OreRingDesc) (d : Nat)
    (m : FiniteDrinfeldModule)
    (h : FiniteDrinfeldModule.init p (.ore r d) = .ok m) :
    m.rank = d ∧ 1 ≤ m.rank := by
  obtain ⟨-, -, -, hd, hm⟩ := (init_ok_iff p r d m).mp h
  subst hm
  exact ⟨rfl, Nat.one_le_iff_ne_zero.mpr hd⟩

/-- Witness for C5: the docstring module (generator of degree 2) has rank
2 ≥ 1. -/
theorem rank_is_gen_degree_witness :
    FiniteDrinfeldModule.init polD (.ore oreD 2) = .ok phiD
    ∧ phiD.rank = 2 ∧ 1 ≤ phiD.rank :=
  ⟨rfl, rank_is_gen_degree polD oreD 2 phiD rfl⟩

/-- C6: whenever `change_ring` succeeds, the returned module's rank equals
the original's rank. -/
theorem change_ring_preserves_rank (m : FiniteDrinfeldModule)
    (R : FieldDesc) (m' : FiniteDrinfeldModule)
    (h : m.change_ring R = .ok m') : m'.rank = m.rank := by
  unfold FiniteDrinfeldModule.change_ring at h
  by_cases h1 : ((!R.isField) && R.isFinite) = true
  · rw [if_pos h1] at h; simp at h
  · rw [if_neg h1] at h
    by_cases h2 : (!(m.oreRing.baseRing.is_subring R)) = true
    · rw [if_pos h2] at h; simp at h
    · rw [if_neg h2] at h
      cases hc : check_base_fields m.polring.baseRing R with
      | error e => rw [hc] at h; simp at h
      | ok u =>
          rw [hc] at h
          obtain ⟨-, -, -, -, hm⟩ := (init_ok_iff _ _ _ _).mp h
          subst hm
          rfl

/-- Witness for C6: extending the docstring module to `M = GF(7^12)`
preserves the rank. -/
theorem change_ring_preserves_rank_witness :
    FiniteDrinfeldModule.change_ring phiD MD = .ok psiD
    ∧ psiD.rank = phiD.rank :=
  ⟨rfl, change_ring_preserves_rank phiD MD psiD rfl⟩

/-- C7: `change_ring` never mutates the original module.  The method body
assigns no attribute of `self`, so the receiver's post-state equals its
pre-state and every getter (`polring`, `ore_polring`, `gen` degree,
`frobenius` power, `rank`) is unchanged; and the returned module, when the
call succeeds, is a new instance that independently re-passes the
validating constructor. -/
theorem change_ring_no_mutation (m : FiniteDrinfeldModule) (R : FieldDesc) :
    (m.change_ring_st R).2 = m
    ∧ (m.change_ring_st R).2.polring = m.polring
    ∧ (m.change_ring_st R).2.oreRing = m.oreRing
    ∧ (m.change_ring_st R).2.genDeg = m.genDeg
    ∧ (m.change_ring_st R).2.frobeniusPower = m.frobeniusPower
    ∧ (m.change_ring_st R).2.rank = m.rank
    ∧ ∀ m', (m.change_ring_st R).1 = .ok m' →
        FiniteDrinfeldModule.init m'.polring (.ore m'.oreRing m'.genDeg)
          = .ok m' := by
  refine ⟨rfl, rfl, rfl, rfl, rfl, rfl, ?_⟩
  intro m' h
  have h' : m.change_ring R = .ok m' := h
  unfold FiniteDrinfeldModule.change_ring at h'
  by_cases h1 : ((!R.isField) && R.isFinite) = true
  · rw [if_pos h1] at h'; simp at h'
  · rw [if_neg h1] at h'
    by_cases h2 : (!(m.oreRing.baseRing.is_subring R)) = true
    · rw [if_pos h2] at h'; simp at h'
    · rw [if_neg h2] at h'
      cases hc : check_base_fields m.polring.baseRing R with
      | error e => rw [hc] at h'; simp at h'
      | ok u =>
          rw [hc] at h'
          obtain ⟨hb, -, htw, hd, hm⟩ := (init_ok_iff _ _ _ _).mp h'
          subst hm
          exact (init_ok_iff _ _ _ _).mpr ⟨hb, rfl, htw, hd, rfl⟩

/-- Witness for C7: the successful base change of the docstring module to
`M = GF(7^12)` leaves the original untouched and yields a module that
re-passes the constructor. -/
theorem change_ring_no_mutation_witness :
    (phiD.change_ring_st MD).2 = phiD
    ∧ FiniteDrinfeldModule.init psiD.polring (.ore psiD.oreRing psiD.genDeg)
        = .ok psiD :=
  ⟨(change_ring_no_mutation phiD MD).1,
    (change_ring_no_mutation phiD MD).2.2.2.2.2.2 psiD rfl⟩

/-- C8: the action built from a Drinfeld module has domain the module's
polynomial ring and codomain exactly the base field `L` of the module's
Ore polynomial ring (never an extension of it), and constructing the action
from anything that is not a `FiniteDrinfeldModule` raises the type-kind
error. -/
theorem action_construction_spec (m : FiniteDrinfeldModule) :
    FiniteDrinfeldModuleAction.init (.module m)
        = .ok ⟨m, m.polring, m.oreRing.baseRing⟩
    ∧ m.get_action = .ok ⟨m, m.polring, m.oreRing.baseRing⟩
    ∧ FiniteDrinfeldModuleAction.init .notModule
        = .error (.typeError notModuleMsg) :=
  ⟨rfl, rfl, rfl⟩
